import Mathlib

/-!
Verification of the date-pattern reconciliation and calendar-materialization
core of the bin-collection calendar service.

Modelling conventions, used throughout:
* A calendar date is an integer counting days since 1970-01-01 (a Thursday).
  The source manipulates JavaScript Date values only at day granularity
  (startOfDay, addDays, the DD/MM/YYYY parser), so day numbers capture the
  relevant behaviour exactly; JavaScript getDay() becomes (d + 4) mod 7.
* The clock ("today" = startOfDay(new Date())) is passed as an explicit
  parameter.
* JavaScript string operations on the ASCII schedule texts are modelled on
  the character lists underlying Lean strings.
* Lean's Int division and modulus are Euclidean; every division below has a
  positive literal divisor, where Euclidean and floor division coincide, and
  every JavaScript % below is applied to non-negative operands, where the
  JavaScript (truncating) remainder coincides with the Euclidean one.
-/

/-- JavaScript toLowerCase, restricted to the character-wise lowering that the
ASCII schedule texts exercise. -/
def lowerStr (s : String) : String := String.mk (s.data.map Char.toLower)

/-- The pattern is a prefix of the text (helper for substring search). -/
def matchesAt : List Char → List Char → Bool
  | [], _ => true
  | _ :: _, [] => false
  | p :: ps, h :: hs => p == h && matchesAt ps hs

/-- The pattern occurs contiguously somewhere in the text
(JavaScript String.includes). -/
def occursIn (pat : List Char) : List Char → Bool
  | [] => matchesAt pat []
  | h :: hs => matchesAt pat (h :: hs) || occursIn pat hs

/-- JavaScript hay.includes(pat). -/
def strIncludes (hay pat : String) : Bool := occursIn pat.data hay.data

/-- src/src/lib/dates.ts, parseScheduleInterval (lines 10-23). -/
def parseScheduleInterval (schedule : String) : Int :=
  let lower := lowerStr schedule
  if strIncludes lower "fortnightly" then 14
  else if strIncludes lower "every" || strIncludes lower "weekly" then 7
  else 7

/-- The weekday table of src/src/lib/dates.ts, parseDayOfWeek (lines 32-40). -/
def weekdayNames : List (String × Int) :=
  [("sunday", 0), ("monday", 1), ("tuesday", 2), ("wednesday", 3),
   ("thursday", 4), ("friday", 5), ("saturday", 6)]

/-- The for-loop of parseDayOfWeek: first table entry occurring in the text. -/
def findDayLoop (lower : String) : List (String × Int) → Option Int
  | [] => none
  | (day, num) :: rest =>
    if strIncludes lower day then some num else findDayLoop lower rest

/-- src/src/lib/dates.ts, parseDayOfWeek (lines 30-48). -/
def parseDayOfWeek (schedule : String) : Option Int :=
  findDayLoop (lowerStr schedule) weekdayNames

/-- JavaScript Date.getDay() for a day-granular date: 1970-01-01 was a
Thursday, hence day number 4. -/
def getDay (d : Int) : Int := (d + 4) % 7

/-- src/src/lib/dates.ts, findNearestDayOfWeek (lines 54-71).  The source's
`x % 7 || 7` is modelled by mapping a zero remainder to 7. -/
def findNearestDayOfWeek (fromDate targetDay : Int) : Int :=
  let currentDay := getDay fromDate
  if currentDay = targetDay then fromDate
  else
    let r1 := (currentDay - targetDay + 7) % 7
    let daysToPrev := if r1 = 0 then 7 else r1
    let r2 := (targetDay - currentDay + 7) % 7
    let daysToNext := if r2 = 0 then 7 else r2
    if daysToPrev ≤ daysToNext then fromDate + (-daysToPrev) else fromDate + daysToNext

/-- Day count of 0000-03-01-anchored civil arithmetic: days since 1970-01-01
of the Gregorian date y-m-d (Howard Hinnant's days_from_civil; all divisors
positive, so Euclidean division is floor division). -/
def daysFromCivil (y m d : Int) : Int :=
  let y2 := if m ≤ 2 then y - 1 else y
  let era := y2 / 400
  let yoe := y2 - era * 400
  let mp := if 2 < m then m - 3 else m + 9
  let doy := (153 * mp + 2) / 5 + d - 1
  let doe := yoe * 365 + yoe / 4 - yoe / 100 + doy
  era * 146097 + doe - 719468

/-- Inverse of daysFromCivil: the Gregorian (year, month, day) of a day
number (Howard Hinnant's civil_from_days). -/
def civilFromDays (z0 : Int) : Int × Int × Int :=
  let z := z0 + 719468
  let era := z / 146097
  let doe := z - era * 146097
  let yoe := (doe - doe / 1460 + doe / 36524 - doe / 146096) / 365
  let y := yoe + era * 400
  let doy := doe - (365 * yoe + yoe / 4 - yoe / 100)
  let mp := (5 * doy + 2) / 153
  let d := doy - (153 * mp + 2) / 5 + 1
  let m := if mp < 10 then mp + 3 else mp - 9
  (if m ≤ 2 then y + 1 else y, m, d)

/-- Leap year test of the Gregorian calendar. -/
def isLeap (y : Int) : Bool := (y % 4 == 0 && y % 100 != 0) || y % 400 == 0

/-- Length in days of month m of year y (m between 1 and 12). -/
def daysInMonth (y m : Int) : Int :=
  if m = 2 then (if isLeap y then 29 else 28)
  else if m = 4 ∨ m = 6 ∨ m = 9 ∨ m = 11 then 30 else 31

/-- date-fns addMonths at day granularity: advance the month index by n and
clamp the day of month to the target month's length. -/
def addMonths (z n : Int) : Int :=
  let c := civilFromDays z
  let ym := c.1 * 12 + (c.2.1 - 1) + n
  let y2 := ym / 12
  let m2 := ym % 12 + 1
  daysFromCivil y2 m2 (min c.2.2 (daysInMonth y2 m2))

/-- A projected occurrence { date, isOverride } (ProjectedOccurrence of the
data model; the element type returned by generateCollectionDates). -/
structure Occurrence where
  date : Int
  isOverride : Bool
deriving DecidableEq

/-- The shared iteration cap MAX_ITERATIONS of src/src/lib/dates.ts
(lines 124 and 155). -/
def maxIterations : Nat := 200

/-- The advance-past-stale-dates loop of src/src/lib/dates.ts (lines 125-128
and 156-159): `while (isBefore(current, today) && iterations < MAX)`.
The fuel argument is MAX_ITERATIONS minus the iterations already used; the
returned fuel is what remains for the emission loop. -/
def advanceLoop (interval today : Int) : Int → Nat → Int × Nat
  | current, 0 => (current, 0)
  | current, fuel + 1 =>
    if current < today then advanceLoop interval today (current + interval) fuel
    else (current, fuel + 1)

/-- The emission loop of src/src/lib/dates.ts (lines 131-135 and 162-166):
`while ((current < end || current == end) && iterations < MAX) push; advance`. -/
def emitLoop (interval endDate : Int) : Int → Nat → List Int
  | _, 0 => []
  | current, fuel + 1 =>
    if current ≤ endDate then current :: emitLoop interval endDate (current + interval) fuel
    else []

/-- src/src/lib/dates.ts, generateCollectionDatesLegacy (lines 144-169). -/
def generateCollectionDatesLegacy (startDate interval today endDate : Int) :
    List Occurrence :=
  let p := advanceLoop interval today startDate maxIterations
  (emitLoop interval endDate p.1 p.2).map (fun d => ⟨d, false⟩)

/-- src/src/lib/dates.ts, generateCollectionDates (lines 85-138).  The clock
value today and the day number of nextCollection are explicit parameters. -/
def generateCollectionDates (today nextCollection : Int) (schedule : String)
    (months : Int) : List Occurrence :=
  let interval := parseScheduleInterval schedule
  let expectedDayOfWeek := parseDayOfWeek schedule
  let endDate := addMonths today months
  match expectedDayOfWeek with
  | none => generateCollectionDatesLegacy nextCollection interval today endDate
  | some expected =>
    let actualDayOfWeek := getDay nextCollection
    let isShifted := actualDayOfWeek != expected
    let anchorDate :=
      if isShifted then findNearestDayOfWeek nextCollection expected
      else nextCollection
    let head : List Occurrence :=
      if nextCollection < today then [] else [⟨nextCollection, isShifted⟩]
    let p := advanceLoop interval today (anchorDate + interval) maxIterations
    head ++ (emitLoop interval endDate p.1 p.2).map (fun d => ⟨d, false⟩)

/-- JavaScript Map.get on a map with day-number keys (the source keys its
override maps by formatDateKey, an ISO calendar-day string that is injective
on day-granular dates). -/
def mapGet (k : Int) : List (Int × Int) → Option Int
  | [] => none
  | (k2, v) :: rest => if k2 = k then some v else mapGet k rest

/-- The per-date body of applyOverrides (src/src/lib/dates.ts, lines 198-207):
replace the date and set isOverride when the override map has its key. -/
def applyOverrideStep (overrides : List (Int × Int)) (date : Int) : Occurrence :=
  match mapGet date overrides with
  | some ov => ⟨ov, true⟩
  | none => ⟨date, false⟩

/-- src/src/lib/dates.ts, applyOverrides (lines 194-208).  The override map
keyed by formatDateKey is modelled as an association list on day numbers. -/
def applyOverrides (calculatedDates : List Int) (overrides : List (Int × Int)) :
    List Occurrence :=
  calculatedDates.map (applyOverrideStep overrides)


/-! Basic properties of the two projection loops. -/

theorem emitLoop_zero (interval endDate current : Int) :
    emitLoop interval endDate current 0 = [] := rfl

theorem emitLoop_mem_ge (interval endDate : Int) (hi : 0 < interval) :
    ∀ (fuel : Nat) (current x : Int),
      x ∈ emitLoop interval endDate current fuel → current ≤ x := by
  intro fuel
  induction fuel with
  | zero => intro current x hx; simp [emitLoop] at hx
  | succ f ih =>
    intro current x hx
    rw [emitLoop] at hx
    split at hx
    · rcases List.mem_cons.mp hx with h | h
      · omega
      · have := ih (current + interval) x h; omega
    · simp at hx

theorem emitLoop_pairwise (interval endDate : Int) (hi : 0 < interval) :
    ∀ (fuel : Nat) (current : Int),
      (emitLoop interval endDate current fuel).Pairwise (· < ·) := by
  intro fuel
  induction fuel with
  | zero => intro current; simp [emitLoop]
  | succ f ih =>
    intro current
    rw [emitLoop]
    split
    · refine List.Pairwise.cons ?_ (ih (current + interval))
      intro x hx
      have := emitLoop_mem_ge interval endDate hi f (current + interval) x hx
      omega
    · simp

theorem emitLoop_length_le (interval endDate : Int) :
    ∀ (fuel : Nat) (current : Int),
      (emitLoop interval endDate current fuel).length ≤ fuel := by
  intro fuel
  induction fuel with
  | zero => intro current; simp [emitLoop]
  | succ f ih =>
    intro current
    rw [emitLoop]
    split
    · have := ih (current + interval); simp; omega
    · simp

theorem advanceLoop_ge (interval today : Int) (hi : 0 < interval) :
    ∀ (fuel : Nat) (current : Int),
      current ≤ (advanceLoop interval today current fuel).1 := by
  intro fuel
  induction fuel with
  | zero => intro current; simp [advanceLoop]
  | succ f ih =>
    intro current
    rw [advanceLoop]
    split
    · have := ih (current + interval); omega
    · simp

theorem advanceLoop_exit (interval today : Int) :
    ∀ (fuel : Nat) (current : Int),
      (advanceLoop interval today current fuel).2 ≠ 0 →
      today ≤ (advanceLoop interval today current fuel).1 := by
  intro fuel
  induction fuel with
  | zero => intro current h; simp [advanceLoop] at h
  | succ f ih =>
    intro current h
    by_cases hc : current < today
    · rw [advanceLoop] at h ⊢
      simp only [if_pos hc] at h ⊢
      exact ih (current + interval) h
    · rw [advanceLoop]
      simp only [if_neg hc]
      omega

theorem advanceLoop_stay (interval today current : Int) (fuel : Nat)
    (h : ¬ current < today) :
    advanceLoop interval today current fuel = (current, fuel) := by
  cases fuel with
  | zero => rfl
  | succ f => rw [advanceLoop]; simp [h]

theorem advanceLoop_fuel_le (interval today : Int) :
    ∀ (fuel : Nat) (current : Int),
      (advanceLoop interval today current fuel).2 ≤ fuel := by
  intro fuel
  induction fuel with
  | zero => intro current; simp [advanceLoop]
  | succ f ih =>
    intro current
    rw [advanceLoop]
    split
    · have := ih (current + interval); omega
    · simp

theorem map_date_mk (l : List Int) :
    (l.map (fun d => (⟨d, false⟩ : Occurrence))).map Occurrence.date = l := by
  induction l with
  | nil => rfl
  | cons a t ih => simp [ih]

/-- Combined facts about the advance-then-emit pipeline shared by both
projection modes: the emitted dates are strictly sorted, and each one is at
least today and at least the starting point of the advance loop. -/
theorem projTail_props (interval today endDate start : Int) (hi : 0 < interval) :
    ((emitLoop interval endDate
        (advanceLoop interval today start maxIterations).1
        (advanceLoop interval today start maxIterations).2).Pairwise (· < ·)) ∧
    ∀ x ∈ emitLoop interval endDate
        (advanceLoop interval today start maxIterations).1
        (advanceLoop interval today start maxIterations).2,
      today ≤ x ∧ start ≤ x := by
  refine ⟨emitLoop_pairwise interval endDate hi _ _, ?_⟩
  intro x hx
  have h1 := emitLoop_mem_ge interval endDate hi _ _ x hx
  have h2 := advanceLoop_ge interval today hi maxIterations start
  rcases Nat.eq_zero_or_pos (advanceLoop interval today start maxIterations).2 with h0 | h0
  · rw [h0, emitLoop_zero] at hx
    simp at hx
  · have h3 := advanceLoop_exit interval today maxIterations start (by omega)
    exact ⟨by omega, by omega⟩

/-! Facts about the schedule parser needed for the projection proofs. -/

theorem parseScheduleInterval_ge (schedule : String) :
    7 ≤ parseScheduleInterval schedule := by
  simp only [parseScheduleInterval]
  split
  · norm_num
  · split <;> norm_num

theorem findDayLoop_mem (lower : String) :
    ∀ (l : List (String × Int)) (k : Int),
      findDayLoop lower l = some k → k ∈ l.map Prod.snd := by
  intro l
  induction l with
  | nil => intro k h; simp [findDayLoop] at h
  | cons p rest ih =>
    obtain ⟨day, num⟩ := p
    intro k h
    rw [findDayLoop] at h
    split at h
    · simp at h
      simp [h]
    · have := ih k h
      simp [this]

theorem parseDayOfWeek_range (schedule : String) (k : Int)
    (h : parseDayOfWeek schedule = some k) : 0 ≤ k ∧ k < 7 := by
  have := findDayLoop_mem (lowerStr schedule) weekdayNames k h
  simp [weekdayNames] at this
  rcases this with h | h | h | h | h | h | h <;> omega

theorem findNearestDayOfWeek_ge (fromDate targetDay : Int)
    (h0 : 0 ≤ targetDay) (h7 : targetDay < 7) :
    fromDate - 3 ≤ findNearestDayOfWeek fromDate targetDay := by
  have hm1 : 0 ≤ (fromDate + 4) % 7 := Int.emod_nonneg _ (by norm_num)
  have hm2 : (fromDate + 4) % 7 < 7 := Int.emod_lt_of_pos _ (by norm_num)
  simp only [findNearestDayOfWeek, getDay]
  split_ifs <;> omega

/-! Rewriting generateCollectionDates into its two modes. -/

theorem generateCollectionDates_legacy_mode (today next : Int) (schedule : String)
    (months : Int) (hp : parseDayOfWeek schedule = none) :
    generateCollectionDates today next schedule months =
      generateCollectionDatesLegacy next (parseScheduleInterval schedule) today
        (addMonths today months) := by
  unfold generateCollectionDates
  rw [hp]

theorem generateCollectionDates_pattern_mode (today next : Int) (schedule : String)
    (months : Int) (exp : Int) (hp : parseDayOfWeek schedule = some exp) :
    generateCollectionDates today next schedule months =
      (if next < today then [] else [⟨next, getDay next != exp⟩]) ++
      (emitLoop (parseScheduleInterval schedule) (addMonths today months)
        (advanceLoop (parseScheduleInterval schedule) today
          ((if getDay next != exp then findNearestDayOfWeek next exp else next) +
            parseScheduleInterval schedule) maxIterations).1
        (advanceLoop (parseScheduleInterval schedule) today
          ((if getDay next != exp then findNearestDayOfWeek next exp else next) +
            parseScheduleInterval schedule) maxIterations).2).map
        (fun d => ⟨d, false⟩) := by
  unfold generateCollectionDates
  rw [hp]

/-- C1: for every clock value, known collection date, schedule text and
horizon in months, the list returned by generateCollectionDates is strictly
sorted ascending, contains no duplicate dates, and every emitted date is on
or after today (today itself may be included); the universally quantified
schedule covers both pattern mode (weekday resolved) and legacy mode (no
weekday resolved). -/
theorem generateCollectionDates_sorted_nodup_future
    (today nextCollection : Int) (schedule : String) (months : Int) :
    ((generateCollectionDates today nextCollection schedule months).map
        Occurrence.date).Pairwise (· < ·) ∧
    ((generateCollectionDates today nextCollection schedule months).map
        Occurrence.date).Nodup ∧
    ∀ o ∈ generateCollectionDates today nextCollection schedule months,
      today ≤ o.date := by
  have hint := parseScheduleInterval_ge schedule
  have hpos : 0 < parseScheduleInterval schedule := by omega
  suffices h :
      ((generateCollectionDates today nextCollection schedule months).map
          Occurrence.date).Pairwise (· < ·) ∧
      ∀ o ∈ generateCollectionDates today nextCollection schedule months,
        today ≤ o.date by
    exact ⟨h.1, h.1.imp ne_of_lt, h.2⟩
  cases hp : parseDayOfWeek schedule with
  | none =>
    rw [generateCollectionDates_legacy_mode today nextCollection schedule months hp]
    unfold generateCollectionDatesLegacy
    have hprops := projTail_props (parseScheduleInterval schedule) today
      (addMonths today months) nextCollection hpos
    constructor
    · rw [map_date_mk]
      exact hprops.1
    · intro o ho
      simp only [List.mem_map] at ho
      obtain ⟨x, hx, rfl⟩ := ho
      exact (hprops.2 x hx).1
  | some exp =>
    rw [generateCollectionDates_pattern_mode today nextCollection schedule months exp hp]
    have hrange := parseDayOfWeek_range schedule exp hp
    set anchor := (if getDay nextCollection != exp
      then findNearestDayOfWeek nextCollection exp else nextCollection) with hanchor
    have hanch : nextCollection - 3 ≤ anchor := by
      rw [hanchor]
      split
      · exact findNearestDayOfWeek_ge nextCollection exp hrange.1 hrange.2
      · omega
    have hprops := projTail_props (parseScheduleInterval schedule) today
      (addMonths today months) (anchor + parseScheduleInterval schedule) hpos
    by_cases hlt : nextCollection < today
    · rw [if_pos hlt]
      simp only [List.nil_append]
      constructor
      · rw [map_date_mk]
        exact hprops.1
      · intro o ho
        simp only [List.mem_map] at ho
        obtain ⟨x, hx, rfl⟩ := ho
        exact (hprops.2 x hx).1
    · rw [if_neg hlt]
      constructor
      · rw [List.map_append, map_date_mk]
        rw [List.pairwise_append]
        refine ⟨by simp, hprops.1, ?_⟩
        intro a ha b hb
        simp at ha
        have := (hprops.2 b hb).2
        omega
      · intro o ho
        rcases List.mem_append.mp ho with h | h
        · simp at h
          rw [h]
          dsimp only
          omega
        · simp only [List.mem_map] at h
          obtain ⟨x, hx, rfl⟩ := h
          exact (hprops.2 x hx).1

/-- Witness for C1 at a concrete input: the first occurrence of the projection
from a Monday with a Tuesday-fortnightly schedule is on or after the clock
day 0. -/
theorem generateCollectionDates_sorted_nodup_future_witness :
    (0 : Int) ≤ (Occurrence.mk 0 true).date :=
  (generateCollectionDates_sorted_nodup_future 0 0 "Tuesday fortnightly" 1).2.2
    ⟨0, true⟩ (by decide)

/-- C9: the projection performs at most 200 interval-advancing steps in total
(the two loops share the iteration counter), so its output has at most 201
entries (200 plus the possible known-date head) and the function is total;
and once the cap is hit while skipping past-due occurrences of a stale known
date, projection returns with no emissions even though the horizon
(addMonths today 3, strictly after today) has not been reached. -/
theorem projection_step_cap :
    (∀ (today next : Int) (schedule : String) (months : Int),
      (generateCollectionDates today next schedule months).length ≤ 201) ∧
    (∀ (startDate interval today endDate : Int),
      (generateCollectionDatesLegacy startDate interval today endDate).length ≤ 200) ∧
    generateCollectionDates 10000 0 "Tuesday fortnightly" 3 = [] ∧
    10000 < addMonths 10000 3 := by
  have legacyBound : ∀ (s i t e : Int),
      (generateCollectionDatesLegacy s i t e).length ≤ 200 := by
    intro s i t e
    unfold generateCollectionDatesLegacy
    have h1 := emitLoop_length_le i e (advanceLoop i t s maxIterations).2
      (advanceLoop i t s maxIterations).1
    have h2 := advanceLoop_fuel_le i t maxIterations s
    have hM : maxIterations = 200 := rfl
    simp only [List.length_map]
    rw [hM] at h1 h2 ⊢
    omega
  refine ⟨?_, legacyBound, by decide, by decide⟩
  intro today next schedule months
  cases hp : parseDayOfWeek schedule with
  | none =>
    rw [generateCollectionDates_legacy_mode today next schedule months hp]
    have := legacyBound next (parseScheduleInterval schedule) today (addMonths today months)
    omega
  | some exp =>
    rw [generateCollectionDates_pattern_mode today next schedule months exp hp]
    rw [List.length_append, List.length_map]
    have hhead : (if next < today then ([] : List Occurrence)
        else [⟨next, getDay next != exp⟩]).length ≤ 1 := by
      split <;> simp
    have h1 := emitLoop_length_le (parseScheduleInterval schedule) (addMonths today months)
      (advanceLoop (parseScheduleInterval schedule) today
        ((if getDay next != exp then findNearestDayOfWeek next exp else next) +
          parseScheduleInterval schedule) maxIterations).2
      (advanceLoop (parseScheduleInterval schedule) today
        ((if getDay next != exp then findNearestDayOfWeek next exp else next) +
          parseScheduleInterval schedule) maxIterations).1
    have h2 := advanceLoop_fuel_le (parseScheduleInterval schedule) today maxIterations
      ((if getDay next != exp then findNearestDayOfWeek next exp else next) +
        parseScheduleInterval schedule)
    have hM : maxIterations = 200 := rfl
    rw [hM] at h1 h2 ⊢
    omega

/-! Further loop lemmas for the holiday-shift example. -/

theorem emitLoop_mem_steps (interval endDate : Int) :
    ∀ (fuel : Nat) (current x : Int),
      x ∈ emitLoop interval endDate current fuel →
      ∃ k : Nat, x = current + interval * k := by
  intro fuel
  induction fuel with
  | zero => intro current x hx; simp [emitLoop] at hx
  | succ f ih =>
    intro current x hx
    rw [emitLoop] at hx
    split at hx
    · rcases List.mem_cons.mp hx with h | h
      · exact ⟨0, by omega⟩
      · obtain ⟨k, hk⟩ := ih (current + interval) x h
        refine ⟨k + 1, ?_⟩
        rw [hk]
        push_cast
        ring
    · simp at hx

theorem emitLoop_head_cases (interval endDate : Int) (fuel : Nat) (current : Int) :
    (emitLoop interval endDate current fuel).head? = some current ∨
    emitLoop interval endDate current fuel = [] := by
  cases fuel with
  | zero => right; rfl
  | succ f =>
    rw [emitLoop]
    split
    · left; rfl
    · right; rfl

theorem emitLoop_chain (interval endDate : Int) :
    ∀ (fuel : Nat) (current : Int),
      List.Chain' (fun a b => b = a + interval)
        (emitLoop interval endDate current fuel) := by
  intro fuel
  induction fuel with
  | zero => intro current; simp [emitLoop]
  | succ f ih =>
    intro current
    rw [emitLoop]
    split
    · rw [List.chain'_cons']
      refine ⟨?_, ih (current + interval)⟩
      intro y hy
      rcases emitLoop_head_cases interval endDate f (current + interval) with h | h
      · rw [h] at hy
        simp at hy
        omega
      · rw [h] at hy
        simp at hy
    · simp

/-- C2: with schedule "Tuesday fortnightly" and a known collection date that
falls on a Monday (weekday 1) and is today or later, the 3-month projection
emits that Monday first with isOverride = true, and every subsequent emitted
occurrence falls on a Tuesday (weekday 2) with isOverride = false, with
consecutive occurrences spaced exactly 14 days apart. -/
theorem tuesday_fortnightly_monday_shift (today next : Int)
    (hmon : getDay next = 1) (hfut : today ≤ next) :
    (generateCollectionDates today next "Tuesday fortnightly" 3).head? =
      some ⟨next, true⟩ ∧
    (∀ o ∈ (generateCollectionDates today next "Tuesday fortnightly" 3).tail,
      getDay o.date = 2 ∧ o.isOverride = false) ∧
    List.Chain' (fun a b => b.date = a.date + 14)
      (generateCollectionDates today next "Tuesday fortnightly" 3).tail := by
  have hm2 : (next + 4) % 7 = 1 := hmon
  have hp : parseDayOfWeek "Tuesday fortnightly" = some 2 := by decide
  have hi : parseScheduleInterval "Tuesday fortnightly" = 14 := by decide
  have hsh : (getDay next != 2) = true := by
    rw [hmon]; decide
  have hanchor : findNearestDayOfWeek next 2 = next + 1 := by
    unfold findNearestDayOfWeek getDay
    norm_num [hm2]
  rw [generateCollectionDates_pattern_mode today next "Tuesday fortnightly" 3 2 hp]
  rw [hi, hsh, if_pos rfl, hanchor]
  rw [if_neg (by omega : ¬ next < today)]
  rw [advanceLoop_stay 14 today (next + 1 + 14) maxIterations (by omega)]
  refine ⟨by simp [hsh], ?_, ?_⟩
  · intro o ho
    simp only [List.singleton_append, List.tail_cons, List.mem_map] at ho
    obtain ⟨x, hx, rfl⟩ := ho
    obtain ⟨k, hk⟩ := emitLoop_mem_steps 14 (addMonths today 3) maxIterations
      (next + 1 + 14) x hx
    refine ⟨?_, rfl⟩
    show (x + 4) % 7 = 2
    omega
  · simp only [List.singleton_append, List.tail_cons]
    rw [List.chain'_map]
    have := emitLoop_chain 14 (addMonths today 3) maxIterations (next + 1 + 14)
    exact List.Chain'.imp (fun a b h => h) this

/-- Witness for C2 at a concrete input: day 4 (1970-01-05) is a Monday taken
as both the clock day and the known collection date. -/
theorem tuesday_fortnightly_monday_shift_witness :
    (generateCollectionDates 4 4 "Tuesday fortnightly" 3).head? =
      some ⟨4, true⟩ :=
  (tuesday_fortnightly_monday_shift 4 4 (by decide) (by decide)).1


/-! Override application (src/src/lib/dates.ts, applyOverrides). -/

theorem mapGet_mem (k v : Int) :
    ∀ (m : List (Int × Int)), mapGet k m = some v → (k, v) ∈ m := by
  intro m
  induction m with
  | nil => intro h; simp [mapGet] at h
  | cons p rest ih =>
    obtain ⟨k2, v2⟩ := p
    intro h
    rw [mapGet] at h
    split at h
    · rename_i heq
      simp at h
      simp [heq, h]
    · simp [ih h]

/-- C5 counterexample: applying the override mapping 0 maps-to 1 a second
time, to the dates produced by applyOverrides, does not reproduce the result
of applying it once (the second pass finds no override for date 1 and resets
isOverride to false). -/
theorem applyOverrides_not_idempotent :
    applyOverrides ((applyOverrides [0] [(0, 1)]).map Occurrence.date) [(0, 1)] ≠
      applyOverrides [0] [(0, 1)] := by decide

/-- C5 as amended: override application is idempotent per date key provided
the mapping is stable, in the sense that every actual date it produces is
mapped to itself by the mapping; without that proviso re-application can
chain to a different date or clear the isOverride flag. -/
theorem applyOverrides_idempotent_of_stable (ds : List Int) (m : List (Int × Int))
    (hfix : ∀ p ∈ m, mapGet p.2 m = some p.2) :
    applyOverrides ((applyOverrides ds m).map Occurrence.date) m =
      applyOverrides ds m := by
  induction ds with
  | nil => rfl
  | cons d rest ih =>
    simp only [applyOverrides, List.map_cons] at ih ⊢
    rw [ih]
    congr 1
    cases h : mapGet d m with
    | none => simp [applyOverrideStep, h]
    | some v =>
      have hv : mapGet v m = some v := hfix (d, v) (mapGet_mem d v m h)
      simp [applyOverrideStep, h, hv]

/-- Witness for the amended C5 on a stable concrete mapping. -/
theorem applyOverrides_idempotent_of_stable_witness :
    applyOverrides ((applyOverrides [5] [(5, 9), (9, 9)]).map Occurrence.date)
        [(5, 9), (9, 9)] =
      applyOverrides [5] [(5, 9), (9, 9)] :=
  applyOverrides_idempotent_of_stable [5] [(5, 9), (9, 9)] (by decide)

/-! The daily refresh reconciler (src/netlify/functions/scheduled-refresh.ts). -/

/-- scheduled-refresh.ts, calculateExpectedNext (lines 209-213). -/
def calculateExpectedNext (lastDate : Int) (schedule : String) : Int :=
  let lower := lowerStr schedule
  lastDate + (if strIncludes lower "fortnightly" then 14 else 7)

/-- The ON CONFLICT DO UPDATE insert of scheduled-refresh.ts (lines 93-99):
the override store of one (property, service), keyed by original date; a
record with the same key is superseded in place, otherwise a new record is
appended. -/
def upsertOverride (store : List (Int × Int)) (originalDate actualDate : Int) :
    List (Int × Int) :=
  if store.any (fun p => p.1 == originalDate) then
    store.map (fun p => if p.1 == originalDate then (p.1, actualDate) else p)
  else store ++ [(originalDate, actualDate)]

/-- The per-service holiday-adjustment detection of scheduled-refresh.ts
(lines 75-101): given the stored record (prevNext, prevSchedule) and the
freshly observed next date, an override {original := expectedNext,
actual := actualNext} is written exactly when the dates differ by at least
one day. -/
def refreshServiceOverrides (prevNext : Int) (prevSchedule : String)
    (actualNext : Int) (store : List (Int × Int)) : List (Int × Int) :=
  let expectedNext := calculateExpectedNext prevNext prevSchedule
  if 1 ≤ |actualNext - expectedNext| then upsertOverride store expectedNext actualNext
  else store

theorem mapGet_map_upsert (k v : Int) :
    ∀ (store : List (Int × Int)), store.any (fun p => p.1 == k) = true →
      mapGet k (store.map (fun p => if p.1 == k then (p.1, v) else p)) =
        some v := by
  intro store
  induction store with
  | nil => intro h; simp at h
  | cons p rest ih =>
    obtain ⟨k2, v2⟩ := p
    intro h
    by_cases hk : k2 = k
    · subst hk
      simp only [List.map_cons]
      rw [if_pos (beq_self_eq_true k2)]
      simp [mapGet]
    · rw [List.any_cons] at h
      rcases Bool.or_eq_true .. |>.mp h with h1 | h1
      · exact absurd (by simpa using h1) hk
      · simp only [List.map_cons]
        rw [if_neg (by simp [hk])]
        rw [mapGet, if_neg hk]
        exact ih h1

theorem mapGet_append_single (k v : Int) :
    ∀ (store : List (Int × Int)), store.any (fun p => p.1 == k) = false →
      mapGet k (store ++ [(k, v)]) = some v := by
  intro store
  induction store with
  | nil => intro _; simp [mapGet]
  | cons p rest ih =>
    obtain ⟨k2, v2⟩ := p
    intro h
    rw [List.any_cons] at h
    have hparts := Bool.or_eq_false_iff.mp h
    have hk : ¬ k2 = k := by simpa using hparts.1
    simp [mapGet, hk, ih hparts.2]

theorem mapGet_upsert (k v : Int) (store : List (Int × Int)) :
    mapGet k (upsertOverride store k v) = some v := by
  unfold upsertOverride
  split
  · apply mapGet_map_upsert
    assumption
  · apply mapGet_append_single
    rename_i h
    exact (Bool.not_eq_true _) ▸ h

/-- C6: an override {original := expectedNext, actual := actualNext} with
expectedNext = prevNext + intervalDays(prevSchedule) is recorded, superseding
any prior record with the same original-date key, exactly when the freshly
observed date differs from the expected one by at least one day; in
particular expectedNext 2025-12-25 with observed 2025-12-29 yields the
override (2025-12-25, 2025-12-29). -/
theorem refresh_override_detection (prevNext : Int) (prevSchedule : String)
    (actualNext : Int) (store : List (Int × Int)) :
    (1 ≤ |actualNext - calculateExpectedNext prevNext prevSchedule| →
      mapGet (calculateExpectedNext prevNext prevSchedule)
        (refreshServiceOverrides prevNext prevSchedule actualNext store) =
        some actualNext) ∧
    (|actualNext - calculateExpectedNext prevNext prevSchedule| < 1 →
      refreshServiceOverrides prevNext prevSchedule actualNext store = store) ∧
    refreshServiceOverrides (daysFromCivil 2025 12 18) "Thursday weekly"
        (daysFromCivil 2025 12 29) [] =
      [(daysFromCivil 2025 12 25, daysFromCivil 2025 12 29)] := by
  refine ⟨?_, ?_, by decide⟩
  · intro h
    simp only [refreshServiceOverrides]
    rw [if_pos h]
    exact mapGet_upsert _ _ store
  · intro h
    simp only [refreshServiceOverrides]
    rw [if_neg (by omega)]

/-- Witness for C6 at a concrete input: stored next 0 with weekly schedule,
observed next 10, so the expected date 7 is overridden to 10. -/
theorem refresh_override_detection_witness :
    mapGet (calculateExpectedNext 0 "weekly")
      (refreshServiceOverrides 0 "weekly" 10 []) = some 10 :=
  (refresh_override_detection 0 "weekly" 10 []).1 (by decide)

/-! The schedule pattern parser contract. -/

theorem parseDayOfWeek_unfold (schedule : String) :
    parseDayOfWeek schedule =
      (if strIncludes (lowerStr schedule) "sunday" then some 0
       else if strIncludes (lowerStr schedule) "monday" then some 1
       else if strIncludes (lowerStr schedule) "tuesday" then some 2
       else if strIncludes (lowerStr schedule) "wednesday" then some 3
       else if strIncludes (lowerStr schedule) "thursday" then some 4
       else if strIncludes (lowerStr schedule) "friday" then some 5
       else if strIncludes (lowerStr schedule) "saturday" then some 6
       else none) := rfl

/-- C8: for every schedule text, parseScheduleInterval returns 14 exactly
when the lowercased text contains "fortnightly" and 7 otherwise, and
parseDayOfWeek returns the first weekday name of the table sunday..saturday
(mapped to 0..6) occurring in the lowercased text, or none when no weekday
name occurs; both are total functions, so the parser never fails. -/
theorem schedule_parser_contract (schedule : String) :
    (parseScheduleInterval schedule =
      if strIncludes (lowerStr schedule) "fortnightly" then 14 else 7) ∧
    (∀ k : Int, parseDayOfWeek schedule = some k →
      ∃ p ∈ weekdayNames, p.2 = k ∧ strIncludes (lowerStr schedule) p.1 = true ∧
        ∀ q ∈ weekdayNames, strIncludes (lowerStr schedule) q.1 = true → k ≤ q.2) ∧
    (parseDayOfWeek schedule = none →
      ∀ q ∈ weekdayNames, strIncludes (lowerStr schedule) q.1 = false) := by
  refine ⟨?_, ?_, ?_⟩
  · simp only [parseScheduleInterval]
    split
    · rfl
    · split <;> rfl
  · intro k hk
    rw [parseDayOfWeek_unfold] at hk
    split_ifs at hk with h0 h1 h2 h3 h4 h5 h6
    · obtain rfl := Option.some.inj hk
      exact ⟨("sunday", 0), by simp [weekdayNames], rfl, h0,
        by intro q hq hsq; fin_cases hq <;> simp_all⟩
    · obtain rfl := Option.some.inj hk
      exact ⟨("monday", 1), by simp [weekdayNames], rfl, h1,
        by intro q hq hsq; fin_cases hq <;> simp_all⟩
    · obtain rfl := Option.some.inj hk
      exact ⟨("tuesday", 2), by simp [weekdayNames], rfl, h2,
        by intro q hq hsq; fin_cases hq <;> simp_all⟩
    · obtain rfl := Option.some.inj hk
      exact ⟨("wednesday", 3), by simp [weekdayNames], rfl, h3,
        by intro q hq hsq; fin_cases hq <;> simp_all⟩
    · obtain rfl := Option.some.inj hk
      exact ⟨("thursday", 4), by simp [weekdayNames], rfl, h4,
        by intro q hq hsq; fin_cases hq <;> simp_all⟩
    · obtain rfl := Option.some.inj hk
      exact ⟨("friday", 5), by simp [weekdayNames], rfl, h5,
        by intro q hq hsq; fin_cases hq <;> simp_all⟩
    · obtain rfl := Option.some.inj hk
      exact ⟨("saturday", 6), by simp [weekdayNames], rfl, h6,
        by intro q hq hsq; fin_cases hq <;> simp_all⟩
  · intro hnone q hq
    rw [parseDayOfWeek_unfold] at hnone
    split_ifs at hnone with h0 h1 h2 h3 h4 h5 h6
    fin_cases hq <;> simp_all

/-- Witness for C8 at a concrete schedule text. -/
theorem schedule_parser_contract_witness :
    parseScheduleInterval "Tuesday fortnightly" =
      (if strIncludes (lowerStr "Tuesday fortnightly") "fortnightly"
       then 14 else 7) :=
  (schedule_parser_contract "Tuesday fortnightly").1

/-! The UK date parser of the refresh reconciler. -/

/-- Numeric value of a decimal digit character. -/
def digitVal (c : Char) : Nat := c.toNat - '0'.toNat

/-- One attempted match of the DD/MM/YYYY regex of scheduled-refresh.ts
(line 199) at the head of the character list; the pattern is unanchored with
fixed-width digit groups, so matching at one position is exactly this test. -/
def matchUKAt : List Char → Option (Nat × Nat × Nat)
  | d1 :: d2 :: s1 :: m1 :: m2 :: s2 :: y1 :: y2 :: y3 :: y4 :: _ =>
    if d1.isDigit && d2.isDigit && s1 == '/' && m1.isDigit && m2.isDigit &&
       s2 == '/' && y1.isDigit && y2.isDigit && y3.isDigit && y4.isDigit then
      some (10 * digitVal d1 + digitVal d2,
            10 * digitVal m1 + digitVal m2,
            1000 * digitVal y1 + 100 * digitVal y2 + 10 * digitVal y3 + digitVal y4)
    else none
  | _ => none

/-- Leftmost-match search of JavaScript String.match for the unanchored
DD/MM/YYYY pattern: try each successive start position. -/
def findUKMatch : List Char → Option (Nat × Nat × Nat)
  | [] => none
  | c :: rest =>
    match matchUKAt (c :: rest) with
    | some r => some r
    | none => findUKMatch rest

/-- JavaScript new Date(year, monthIndex, day) at day granularity: the
constructor normalizes any out-of-range month index and day of month by
arithmetic rollover, and maps years 0..99 to 1900..1999. -/
def jsMakeDate (year monthIndex day : Int) : Int :=
  let y0 := if 0 ≤ year ∧ year ≤ 99 then 1900 + year else year
  let ym := y0 * 12 + monthIndex
  let y := ym / 12
  let m := ym % 12 + 1
  daysFromCivil y m 1 + (day - 1)

/-- scheduled-refresh.ts, parseUKDate (lines 196-204). -/
def parseUKDate (dateStr : String) : Option Int :=
  if dateStr.data.isEmpty then none
  else
    match findUKMatch dateStr.data with
    | none => none
    | some (day, month, year) =>
      some (jsMakeDate (year : Int) ((month : Int) - 1) (day : Int))

theorem findUKMatch_none_of_all :
    ∀ (cs : List Char), (∀ t ∈ cs.tails, matchUKAt t = none) →
      findUKMatch cs = none := by
  intro cs
  induction cs with
  | nil => intro _; rfl
  | cons c rest ih =>
    intro h
    rw [findUKMatch]
    rw [h (c :: rest) (by rw [List.tails_cons]; exact List.mem_cons_self _ _)]
    exact ih fun t ht => h t (by rw [List.tails_cons]; exact List.mem_cons_of_mem _ ht)

/-- C10: parseUKDate returns none for every string containing no DD/MM/YYYY
digit pattern (no suffix starts with such a pattern), but performs no range
validation on a match: the calendar-invalid inputs "25/13/2025" (month 13)
and "31/11/2025" (day beyond November's length) are accepted and roll over
to the different calendar days 2026-01-25 and 2025-12-01, with a different
month and year, respectively a different day and month, than the digits
written. -/
theorem parseUKDate_no_validation :
    (∀ s : String, (∀ t ∈ s.data.tails, matchUKAt t = none) →
      parseUKDate s = none) ∧
    parseUKDate "25/13/2025" = some (daysFromCivil 2026 1 25) ∧
    civilFromDays (daysFromCivil 2026 1 25) = (2026, 1, 25) ∧
    parseUKDate "31/11/2025" = some (daysFromCivil 2025 12 1) ∧
    civilFromDays (daysFromCivil 2025 12 1) = (2025, 12, 1) := by
  refine ⟨?_, by decide, by decide, by decide, by decide⟩
  intro s h
  unfold parseUKDate
  split
  · rfl
  · rw [findUKMatch_none_of_all s.data h]

/-- Witness for C10 on a concrete string with no date pattern. -/
theorem parseUKDate_no_validation_witness :
    parseUKDate "no date here" = none :=
  parseUKDate_no_validation.1 "no date here" (by decide)

/-! The calendar materializer (src/src/lib/ical.ts, generateICalendar).
A CalendarEvent of the source is the same record { date, isOverride } as a
projected occurrence, so Occurrence doubles as its model. -/

/-- One value of the eventsByDate map of generateICalendar (lines 214-234):
the services seen on one day, the day's representative Date (set when the
key is first inserted), and whether any occurrence was an override. -/
structure DayGroup where
  services : List String
  date : Int
  hasOverride : Bool
deriving DecidableEq

/-- The category filter of the calendar stream: the filter query parameter
with values recycling or general, absent meaning the combined calendar. -/
inductive CalFilter
  | recycling
  | general
deriving DecidableEq

/-- The body of the grouping loop of generateICalendar (lines 216-234): a
JavaScript Map iterates in insertion order, so it is modelled as an
association list to which new date keys are appended. -/
def addEventToGroups (groups : List (Int × DayGroup)) (serviceName : String)
    (e : Occurrence) : List (Int × DayGroup) :=
  if groups.any (fun g => g.1 == e.date) then
    groups.map (fun g =>
      if g.1 == e.date then
        (g.1, { g.2 with services := g.2.services ++ [serviceName],
                         hasOverride := g.2.hasOverride || e.isOverride })
      else g)
  else
    groups ++ [(e.date, { services := [serviceName], date := e.date,
                          hasOverride := e.isOverride })]

/-- The grouping pass of generateICalendar (lines 213-234). -/
def groupEventsByDate (events : List (String × List Occurrence)) :
    List (Int × DayGroup) :=
  events.foldl (fun groups svc =>
    svc.2.foldl (fun gs e => addEventToGroups gs svc.1 e) groups) []

/-- hasFood of generateICalendar (line 237). -/
def hasFoodService (events : List (String × List Occurrence)) : Bool :=
  events.any (fun e => e.1 == "Food Collection")

/-- The per-day emission loop of generateICalendar (lines 240-267): the
day-groups that reach generateDayEvent, with their service lists as passed
to it (food-only days skipped, the category filter applied, and the food
service injected into emitted days that lack it). -/
def emittedDayGroups (events : List (String × List Occurrence))
    (filter : Option CalFilter) : List DayGroup :=
  let eventsByDate := groupEventsByDate events
  let hasFood := hasFoodService events
  eventsByDate.filterMap fun entry =>
    let dayEvent := entry.2
    let nonFoodServices := dayEvent.services.filter (fun s => s != "Food Collection")
    if nonFoodServices.length = 0 then none
    else if filter = some CalFilter.recycling ∧
        ¬ dayEvent.services.contains "Recycling Collection" then none
    else if filter = some CalFilter.general ∧
        ¬ dayEvent.services.contains "Refuse Collection" then none
    else
      some { dayEvent with services :=
        if hasFood ∧ ¬ dayEvent.services.contains "Food Collection"
        then dayEvent.services ++ ["Food Collection"]
        else dayEvent.services }

/-- C3: a day-group whose only service is the food-waste collection produces
no event (every emitted group retains a non-food service), and for a
property that has a food-waste service, every emitted day-group, including
those kept by the recycling or general category filter, carries
"Food Collection" in its service list. -/
theorem food_suppression_and_injection
    (events : List (String × List Occurrence)) (filter : Option CalFilter) :
    ∀ g ∈ emittedDayGroups events filter,
      (∃ s ∈ g.services, s ≠ "Food Collection") ∧
      (hasFoodService events = true → "Food Collection" ∈ g.services) := by
  intro g hg
  unfold emittedDayGroups at hg
  simp only [List.mem_filterMap] at hg
  obtain ⟨entry, hmem, hsome⟩ := hg
  split at hsome
  · exact absurd hsome (by simp)
  · split at hsome
    · exact absurd hsome (by simp)
    · split at hsome
      · exact absurd hsome (by simp)
      · rename_i hnf hrec hgen
        obtain rfl := Option.some.inj hsome
        have hlen : 0 < (entry.2.services.filter
            (fun s => s != "Food Collection")).length := Nat.pos_of_ne_zero hnf
        obtain ⟨s, hs⟩ := List.exists_mem_of_length_pos hlen
        rw [List.mem_filter] at hs
        constructor
        · refine ⟨s, ?_, by simpa using hs.2⟩
          split
          · exact List.mem_append_left _ hs.1
          · exact hs.1
        · intro hfood
          split
          · exact List.mem_append_right _ (by simp)
          · rename_i hcond
            rw [not_and, not_not] at hcond
            exact List.mem_of_elem_eq_true (hcond hfood)

/-- Witness for C3 at a concrete input: a refuse day at day 0 and a
food-only day at day 1; the emitted group is the refuse day with food
injected. -/
theorem food_suppression_and_injection_witness :
    (∃ s ∈ (DayGroup.mk ["Refuse Collection", "Food Collection"] 0 false).services,
      s ≠ "Food Collection") ∧
    (hasFoodService [("Refuse Collection", [⟨0, false⟩]),
        ("Food Collection", [⟨1, false⟩])] = true →
      "Food Collection" ∈
        (DayGroup.mk ["Refuse Collection", "Food Collection"] 0 false).services) :=
  food_suppression_and_injection
    [("Refuse Collection", [⟨0, false⟩]), ("Food Collection", [⟨1, false⟩])]
    none ⟨["Refuse Collection", "Food Collection"], 0, false⟩ (by decide)

/-- The colour selection of generateDayEvent (src/src/lib/ical.ts, lines
293-302): green when the recycling service is present, else gray when
general refuse is present, else the default blue. -/
def dayEventColor (serviceNames : List String) : String :=
  let hasRecycling := serviceNames.contains "Recycling Collection"
  let hasGeneralWaste := serviceNames.contains "Refuse Collection"
  if hasRecycling then "green"
  else if hasGeneralWaste then "gray"
  else "blue"

/-- The four-way priority classification that the specification describes
for day-group events, with abstract colours a (recycling), b (general
refuse), c (garden) and d (generic bin day). -/
def classifyColorSpec (a b c d : String) (names : List String) : String :=
  if names.contains "Recycling Collection" then a
  else if names.contains "Refuse Collection" then b
  else if names.contains "Garden Waste Collection" then c
  else d

/-- C7 counterexample: no colour assignment whose garden colour differs from
the generic colour makes dayEventColor implement the specification's
four-way priority classification; the code has no garden branch, so a
garden-waste-only day-group receives the same colour as a generic group. -/
theorem dayEventColor_no_garden_branch :
    ¬ ∃ a b c d : String, c ≠ d ∧
      ∀ names, dayEventColor names = classifyColorSpec a b c d names := by
  rintro ⟨a, b, c, d, hcd, h⟩
  have h1 := h ["Garden Waste Collection"]
  have h2 := h ["Paper/Card Collection"]
  rw [show dayEventColor ["Garden Waste Collection"] = "blue" from by decide] at h1
  rw [show dayEventColor ["Paper/Card Collection"] = "blue" from by decide] at h2
  simp [classifyColorSpec] at h1 h2
  exact hcd (h1 ▸ h2 ▸ rfl)

/-- C7 as amended: an emitted day-group's colour is chosen in priority order
recycling (green), then general refuse (gray); every other group, garden
waste included, receives the generic colour blue, and there is no dedicated
garden classification. -/
theorem dayEventColor_amended (names : List String) :
    dayEventColor names =
      (if "Recycling Collection" ∈ names then "green"
       else if "Refuse Collection" ∈ names then "gray"
       else "blue") := by
  unfold dayEventColor
  by_cases h1 : "Recycling Collection" ∈ names <;>
    by_cases h2 : "Refuse Collection" ∈ names <;>
      simp [h1, h2, List.elem_iff]

/-! RFC 5545 line folding (src/src/lib/ical.ts, foldLine, lines 126-161). -/

/-- UTF-8 byte length of a character list (Buffer.byteLength of the source;
JavaScript for..of iterates code points, which Lean characters model). -/
def utf8Len (l : List Char) : Nat := (l.map Char.utf8Size).sum

/-- The folding loop of foldLine (lines 140-154): accumulate characters into
currentLine, starting a space-prefixed continuation line whenever the next
character would push the byte count past 75 (first line) or 74 (later
lines); lines 156-158 append the final nonempty currentLine. -/
def foldLoop (chars : List Char) (currentLine : List Char) (currentBytes : Nat)
    (isFirstLine : Bool) : List (List Char) :=
  match chars with
  | [] => if currentLine.isEmpty then [] else [currentLine]
  | c :: rest =>
    if (if isFirstLine then 75 else 74) < currentBytes + c.utf8Size then
      currentLine :: foldLoop rest [' ', c] (1 + c.utf8Size) false
    else
      foldLoop rest (currentLine ++ [c]) (currentBytes + c.utf8Size) isFirstLine

/-- The physical lines produced by foldLine: the early return for lines of
at most 75 bytes (lines 130-133), else the loop from an empty first line. -/
def foldLineParts (line : String) : List (List Char) :=
  if utf8Len line.data ≤ 75 then [line.data]
  else foldLoop line.data [] 0 true

/-- src/src/lib/ical.ts, foldLine (lines 126-161): the physical lines joined
by CRLF. -/
def foldLine (line : String) : String :=
  String.intercalate "\r\n" ((foldLineParts line).map String.mk)

/-- Reassembly of folded parts: the first part followed by the
space-stripped continuation parts. -/
def joinTail : List (List Char) → List Char
  | [] => []
  | p :: ps => p ++ (ps.map (fun q => q.drop 1)).flatten

theorem foldLoop_nil (cur : List Char) (bytes : Nat) (first : Bool) :
    foldLoop [] cur bytes first = if cur.isEmpty then [] else [cur] := rfl

theorem foldLoop_cons (c : Char) (rest cur : List Char) (bytes : Nat)
    (first : Bool) :
    foldLoop (c :: rest) cur bytes first =
      if (if first then 75 else 74) < bytes + c.utf8Size then
        cur :: foldLoop rest [' ', c] (1 + c.utf8Size) false
      else foldLoop rest (cur ++ [c]) (bytes + c.utf8Size) first := rfl

theorem utf8Len_append (a b : List Char) :
    utf8Len (a ++ b) = utf8Len a + utf8Len b := by
  simp [utf8Len]

theorem utf8Size_le_four (c : Char) : c.utf8Size ≤ 4 := by
  unfold Char.utf8Size
  dsimp only
  split_ifs <;> norm_num

theorem foldLoop_invariant :
    ∀ (chars cur : List Char) (bytes : Nat) (first : Bool),
      bytes = utf8Len cur →
      bytes ≤ (if first then 75 else 74) →
      (first = false → cur.head? = some ' ') →
      (∀ p ∈ foldLoop chars cur bytes first, utf8Len p ≤ 75) ∧
      (∀ p ∈ (if first then (foldLoop chars cur bytes first).tail
              else foldLoop chars cur bytes first),
        p.head? = some ' ' ∧ utf8Len p ≤ 74) ∧
      joinTail (foldLoop chars cur bytes first) = cur ++ chars := by
  intro chars
  induction chars with
  | nil =>
    intro cur bytes first h1 h2 h3
    rw [foldLoop_nil]
    by_cases hemp : cur.isEmpty
    · rw [if_pos hemp]
      have hcur : cur = [] := by simpa using hemp
      subst hcur
      refine ⟨by simp, ?_, by simp [joinTail]⟩
      cases first <;> simp
    · rw [if_neg hemp]
      have hble : bytes ≤ 75 := by
        cases first <;> simp at h2 <;> omega
      refine ⟨?_, ?_, by simp [joinTail]⟩
      · intro p hp
        simp at hp
        subst hp
        omega
      · cases first
        · rw [if_neg Bool.false_ne_true]
          intro p hp
          simp at hp
          subst hp
          refine ⟨h3 rfl, ?_⟩
          simp at h2
          omega
        · rw [if_pos rfl]
          simp
  | cons c rest ih =>
    intro cur bytes first h1 h2 h3
    have hsp : (' ' : Char).utf8Size = 1 := by decide
    have hc4 := utf8Size_le_four c
    have hcur75 : utf8Len cur ≤ 75 := by
      cases first <;> simp at h2 <;> omega
    by_cases hover : (if first then 75 else 74) < bytes + c.utf8Size
    · rw [foldLoop_cons, if_pos hover]
      have hIH := ih [' ', c] (1 + c.utf8Size) false
        (by simp [utf8Len, hsp])
        (by simp; omega)
        (fun _ => rfl)
      obtain ⟨ha, hb, hc⟩ := hIH
      rw [if_neg Bool.false_ne_true] at hb
      refine ⟨?_, ?_, ?_⟩
      · intro p hp
        rcases List.mem_cons.mp hp with rfl | hp
        · omega
        · exact ha p hp
      · cases first
        · rw [if_neg Bool.false_ne_true]
          intro p hp
          rcases List.mem_cons.mp hp with rfl | hp
          · refine ⟨h3 rfl, ?_⟩
            simp at h2
            omega
          · exact hb p hp
        · rw [if_pos rfl, List.tail_cons]
          exact hb
      · have hne : foldLoop rest [' ', c] (1 + c.utf8Size) false ≠ [] := by
          intro h0
          rw [h0] at hc
          simp [joinTail] at hc
        obtain ⟨q, qs, heq⟩ := List.exists_cons_of_ne_nil hne
        rw [heq] at hc ⊢
        have hq : q.head? = some ' ' :=
          (hb q (by rw [heq]; exact List.mem_cons_self _ _)).1
        obtain ⟨t, rfl⟩ : ∃ t, q = ' ' :: t := by
          cases q with
          | nil => simp at hq
          | cons x xs =>
            simp at hq
            subst hq
            exact ⟨xs, rfl⟩
        simp only [joinTail] at hc ⊢
        simp at hc
        simp [hc]
    · rw [foldLoop_cons, if_neg hover]
      have hIH := ih (cur ++ [c]) (bytes + c.utf8Size) first
        (by rw [utf8Len_append, h1]; simp [utf8Len])
        (by omega)
        (by
          intro hf
          have hh := h3 hf
          cases cur with
          | nil => simp at hh
          | cons a as => simpa using hh)
      obtain ⟨ha, hb, hc⟩ := hIH
      refine ⟨ha, hb, ?_⟩
      rw [hc]
      simp

set_option maxRecDepth 10000 in
/-- C4: for every input line, each physical line produced by the folder is
at most 75 UTF-8 bytes, every continuation line begins with a single added
space and carries at most 74 content bytes, and a split never falls inside a
character: the first part followed by the space-stripped continuations is
exactly the original character list; moreover a line of 200 ASCII bytes is
folded into exactly 3 physical lines of byte lengths 75, 74 and 53. -/
theorem foldLine_bounds :
    (∀ line : String,
      (∀ p ∈ foldLineParts line, utf8Len p ≤ 75) ∧
      (∀ p ∈ (foldLineParts line).tail,
        p.head? = some ' ' ∧ utf8Len (p.drop 1) ≤ 74) ∧
      joinTail (foldLineParts line) = line.data) ∧
    (foldLineParts (String.mk (List.replicate 200 'a'))).map utf8Len =
      [75, 74, 53] := by
  refine ⟨?_, by decide⟩
  intro line
  unfold foldLineParts
  split
  · rename_i hshort
    refine ⟨?_, by simp, by simp [joinTail]⟩
    intro p hp
    simp at hp
    subst hp
    exact hshort
  · have h := foldLoop_invariant line.data [] 0 true rfl (by norm_num)
      (by intro hf; exact absurd hf (by simp))
    obtain ⟨ha, hb, hc⟩ := h
    rw [if_pos rfl] at hb
    refine ⟨ha, ?_, by simpa using hc⟩
    intro p hp
    have hpb := hb p hp
    refine ⟨hpb.1, ?_⟩
    obtain ⟨t, rfl⟩ : ∃ t, p = ' ' :: t := by
      cases p with
      | nil => simp at hpb
      | cons x xs =>
        have hx := hpb.1
        simp at hx
        subst hx
        exact ⟨xs, rfl⟩
    have hsp : (' ' : Char).utf8Size = 1 := by decide
    have hlen := hpb.2
    simp [utf8Len, hsp] at hlen ⊢
    omega

set_option maxRecDepth 10000 in
/-- Witness for C4: the first physical line of the folded 200-byte ASCII
line is within the 75-byte limit. -/
theorem foldLine_bounds_witness :
    utf8Len (List.replicate 75 'a') ≤ 75 :=
  (foldLine_bounds.1 (String.mk (List.replicate 200 'a'))).1
    (List.replicate 75 'a') (by decide)
